import Mathlib

set_option maxRecDepth 4096

/- Verification development for IC Redact (src/ic_redact.py).

   Page text is modelled as `List Char`.  The Python regular
   expressions of `PII_PATTERNS` are hand-compiled into backtracking
   matchers in continuation-passing style: alternatives are tried in
   the same priority order as Python's `re` backtracking engine
   (alternation left to right, greedy pieces longest first), and
   `re.finditer` is modelled by a fuelled left-to-right scan that
   emits non-overlapping matches, resuming after the end of each
   match.  Python's stable `sorted(..., key=lambda x: x["start"])`
   is modelled by stable insertion sort on `start`. -/

/-- ASCII decimal digit, Python `\d`. -/
def digitC (c : Char) : Bool := c.isDigit

/-- Python `\w`: `[A-Za-z0-9_]` (ASCII model). -/
def wordC (c : Char) : Bool := c.isAlpha || c.isDigit || c == '_'

/-- Python `\s`: space, tab, newline, carriage return, vertical tab, form feed. -/
def spaceC (c : Char) : Bool :=
  c == ' ' || c == '\t' || c == '\n' || c == '\r' || c == '\x0b' || c == '\x0c'

/-- Character of the page text at index `i`, if any. -/
def charAt? (cs : List Char) (i : Nat) : Option Char := cs[i]?

def isWordAt (cs : List Char) (i : Nat) : Bool :=
  match charAt? cs i with
  | some c => wordC c
  | none => false

/-- Python `\b`: the position `i` lies between a word and a non-word character
    (start/end of text count as non-word). -/
def wordBd (cs : List Char) (i : Nat) : Bool :=
  (if i = 0 then false else isWordAt cs (i - 1)) != isWordAt cs i

/-- A backtracking matcher in continuation-passing style: given the text, a
    start position and a continuation for the rest of the pattern, return the
    end position of the first overall success (alternatives tried in the
    regex engine's priority order), or `none`. -/
abbrev Matcher := List Char → Nat → (Nat → Option Nat) → Option Nat

/-- Zero-width `\b` assertion. -/
def bAssert : Matcher := fun cs i k => if wordBd cs i then k i else none

/-- A single character of a class, e.g. `\d` or a separator class. -/
def oneCls (p : Char → Bool) : Matcher := fun cs i k =>
  match charAt? cs i with
  | some c => if p c then k (i + 1) else none
  | none => none

/-- Sequencing of two pattern pieces. -/
def seqM (a b : Matcher) : Matcher := fun cs i k => a cs i (fun j => b cs j k)

/-- Alternation `x|y|...`, alternatives tried left to right. -/
def altM (ms : List Matcher) : Matcher := fun cs i k => ms.findSome? (fun m => m cs i k)

/-- Greedy `?` on a pattern piece: try to consume it, else skip it. -/
def optM (m : Matcher) : Matcher := fun cs i k => (m cs i k) <|> k i

/-- Does the literal `s` occur at position `i` of `cs`, case-insensitively
    (Python `re.IGNORECASE` on an escaped literal)? -/
def ciAt : List Char → List Char → Nat → Bool
  | [], _, _ => true
  | c :: rest, cs, i =>
    match charAt? cs i with
    | some d => (c.toLower == d.toLower) && ciAt rest cs (i + 1)
    | none => false

/-- Does the literal `s` occur at position `i` of `cs`, case-sensitively? -/
def exAt : List Char → List Char → Nat → Bool
  | [], _, _ => true
  | c :: rest, cs, i =>
    match charAt? cs i with
    | some d => (c == d) && exAt rest cs (i + 1)
    | none => false

/-- Case-insensitive literal piece. -/
def litCI (s : List Char) : Matcher := fun cs i k =>
  if ciAt s cs i then k (i + s.length) else none

/-- Case-sensitive literal piece. -/
def litEx (s : List Char) : Matcher := fun cs i k =>
  if exAt s cs i then k (i + s.length) else none

/-- Length of the maximal run of characters satisfying `p` at the front. -/
def runLen (p : Char → Bool) : List Char → Nat
  | [] => 0
  | c :: rest => if p c then runLen p rest + 1 else 0

/-- Greedy counted repetition `p{lo,hi}` of a character class (`hi = none`
    for an unbounded `{lo,}`): lengths are tried from the longest possible
    down to `lo`, exactly like the backtracking engine. -/
def repCls (p : Char → Bool) (lo : Nat) (hi : Option Nat) : Matcher := fun cs i k =>
  let L := runLen p (cs.drop i)
  let top := match hi with | some h => min L h | none => L
  if top < lo then none
  else (List.range (top + 1 - lo)).findSome? (fun t => k (i + top - t))

/-- Run a matcher at position `i`; return the length of the match, if any. -/
def matchLen (m : Matcher) (cs : List Char) (i : Nat) : Option Nat :=
  (m cs i some).map (fun e => e - i)

/-- `re.finditer` from position `i` with the given fuel: at each position try
    the pattern; on a match of length `L` emit `(i, L)` and resume at the end
    of the match (one past it for an empty match), else advance one position. -/
def finditerFrom (m : List Char → Nat → Option Nat) (cs : List Char) :
    Nat → Nat → List (Nat × Nat)
  | _, 0 => []
  | i, fuel + 1 =>
    match m cs i with
    | some L => (i, L) :: finditerFrom m cs (i + max L 1) fuel
    | none => finditerFrom m cs (i + 1) fuel

/-- All non-overlapping matches of the pattern, leftmost first. -/
def finditer (m : List Char → Nat → Option Nat) (cs : List Char) : List (Nat × Nat) :=
  finditerFrom m cs 0 (cs.length + 1)

/-- The slice of the text matched at `(i, L)` — Python's `m.group()`. -/
def sliceTxt (cs : List Char) (i L : Nat) : List Char := (cs.drop i).take L

/-- One matched occurrence, the `{"text", "type", "start"}` dict built by
    `find_pii`; `page` models the `"page"` key added by `run` (0 while the
    key is still absent). -/
structure Detection where
  text : List Char
  type : String
  start : Nat
  page : Nat
  deriving DecidableEq, Repr

/-- All detections of one pattern over the text, tagged with its category. -/
def detsOf (tag : String) (m : Matcher) (cs : List Char) : List Detection :=
  (finditer (matchLen m) cs).map
    (fun sl => { text := sliceTxt cs sl.1 sl.2, type := tag, start := sl.1, page := 0 })

def concatMap (f : α → List β) (l : List α) : List β := (l.map f).flatten

def detsOfPats (tag : String) (pats : List Matcher) (cs : List Char) : List Detection :=
  concatMap (fun p => detsOf tag p cs) pats

/- ---------- the PII_PATTERNS table, hand-compiled ---------- -/

/-- digit class `[1-9]`. -/
def d19 (c : Char) : Bool := ('1' ≤ c) && (c ≤ '9')

/-- `PII_PATTERNS["SSN"][0]`: `\b\d{3}-\d{2}-\d{4}\b`. -/
def ssn1 : Matcher :=
  seqM bAssert (seqM (repCls digitC 3 (some 3)) (seqM (oneCls (· == '-'))
    (seqM (repCls digitC 2 (some 2)) (seqM (oneCls (· == '-'))
      (seqM (repCls digitC 4 (some 4)) bAssert)))))

/-- `PII_PATTERNS["SSN"][1]`: `\b\d{3}\s\d{2}\s\d{4}\b`. -/
def ssn2 : Matcher :=
  seqM bAssert (seqM (repCls digitC 3 (some 3)) (seqM (oneCls spaceC)
    (seqM (repCls digitC 2 (some 2)) (seqM (oneCls spaceC)
      (seqM (repCls digitC 4 (some 4)) bAssert)))))

/-- phone separator class `[-.\s]`. -/
def phoneSep (c : Char) : Bool := c == '-' || c == '.' || spaceC c

/-- `PII_PATTERNS["PHONE"][0]`: `\b\(?\d{3}\)?[-.\s]?\d{3}[-.\s]?\d{4}\b`. -/
def phonePat : Matcher :=
  seqM bAssert (seqM (optM (oneCls (· == '(')))
    (seqM (repCls digitC 3 (some 3)) (seqM (optM (oneCls (· == ')')))
      (seqM (optM (oneCls phoneSep)) (seqM (repCls digitC 3 (some 3))
        (seqM (optM (oneCls phoneSep)) (seqM (repCls digitC 4 (some 4)) bAssert)))))))

/-- email local-part class `[A-Za-z0-9._%+-]`. -/
def emailLocC (c : Char) : Bool :=
  c.isAlpha || c.isDigit || c == '.' || c == '_' || c == '%' || c == '+' || c == '-'

/-- email domain class `[A-Za-z0-9.-]`. -/
def emailDomC (c : Char) : Bool := c.isAlpha || c.isDigit || c == '.' || c == '-'

/-- email top-level class `[A-Z|a-z]` (the class literally contains `|`). -/
def emailTldC (c : Char) : Bool := c.isAlpha || c == '|'

/-- `PII_PATTERNS["EMAIL"][0]`:
    `\b[A-Za-z0-9._%+-]+@[A-Za-z0-9.-]+\.[A-Z|a-z]{2,}\b`
    (compiled with `re.IGNORECASE`, which changes nothing here since the
    letter classes already cover both cases). -/
def emailPat : Matcher :=
  seqM bAssert (seqM (repCls emailLocC 1 none) (seqM (oneCls (· == '@'))
    (seqM (repCls emailDomC 1 none) (seqM (oneCls (· == '.'))
      (seqM (repCls emailTldC 2 none) bAssert)))))

/-- credit-card separator class `[-\s]`. -/
def ccSep (c : Char) : Bool := c == '-' || spaceC c

/-- `PII_PATTERNS["CREDIT_CARD"][0]`: `\b\d{4}[-\s]?\d{4}[-\s]?\d{4}[-\s]?\d{4}\b`. -/
def ccPat : Matcher :=
  seqM bAssert (seqM (repCls digitC 4 (some 4)) (seqM (optM (oneCls ccSep))
    (seqM (repCls digitC 4 (some 4)) (seqM (optM (oneCls ccSep))
      (seqM (repCls digitC 4 (some 4)) (seqM (optM (oneCls ccSep))
        (seqM (repCls digitC 4 (some 4)) bAssert)))))))

/-- `PII_PATTERNS["BANK_ACCOUNT"][0]`: `\b\d{8,17}\b`. -/
def bankPat : Matcher :=
  seqM bAssert (seqM (repCls digitC 8 (some 17)) bAssert)

/-- the date separator class: dash or slash. -/
def dateSep (c : Char) : Bool := c == '-' || c == '/'

/-- month group `(0?[1-9]|1[0-2])`. -/
def monthNum : Matcher :=
  altM [seqM (optM (oneCls (· == '0'))) (oneCls d19),
        seqM (oneCls (· == '1')) (oneCls (fun c => ('0' ≤ c) && (c ≤ '2')))]

/-- day group `(0?[1-9]|[12]\d|3[01])`. -/
def dayNum : Matcher :=
  altM [seqM (optM (oneCls (· == '0'))) (oneCls d19),
        seqM (oneCls (fun c => c == '1' || c == '2')) (oneCls digitC),
        seqM (oneCls (· == '3')) (oneCls (fun c => c == '0' || c == '1'))]

/-- year group `(19|20)\d{2}`. -/
def yearM : Matcher :=
  seqM (altM [litEx ['1', '9'], litEx ['2', '0']]) (repCls digitC 2 (some 2))

/-- `PII_PATTERNS["DATE_OF_BIRTH"][0]`:
    `\b(0?[1-9]|1[0-2])sep(0?[1-9]|[12]\d|3[01])sep(19|20)\d{2}\b  (sep is the dash-or-slash class)`. -/
def dob1 : Matcher :=
  seqM bAssert (seqM monthNum (seqM (oneCls dateSep)
    (seqM dayNum (seqM (oneCls dateSep) (seqM yearM bAssert)))))

/-- `PII_PATTERNS["DATE_OF_BIRTH"][1]`:
    `\b(19|20)\d{2}sep(0?[1-9]|1[0-2])sep(0?[1-9]|[12]\d|3[01])\b`. -/
def dob2 : Matcher :=
  seqM bAssert (seqM yearM (seqM (oneCls dateSep)
    (seqM monthNum (seqM (oneCls dateSep) (seqM dayNum bAssert)))))

/-- the month-name alternation `(Jan|Feb|Mar|Apr|May|Jun|Jul|Aug|Sep|Oct|Nov|Dec)`,
    matched case-insensitively (`re.IGNORECASE`). -/
def monthName : Matcher :=
  altM [litCI ['J','a','n'], litCI ['F','e','b'], litCI ['M','a','r'],
        litCI ['A','p','r'], litCI ['M','a','y'], litCI ['J','u','n'],
        litCI ['J','u','l'], litCI ['A','u','g'], litCI ['S','e','p'],
        litCI ['O','c','t'], litCI ['N','o','v'], litCI ['D','e','c']]

/-- `PII_PATTERNS["DATE_OF_BIRTH"][2]`:
    `\b(Jan|...|Dec)[a-z]*\.?\s+\d{1,2},?\s+(19|20)\d{2}\b`
    with `re.IGNORECASE`, under which `[a-z]` matches any ASCII letter. -/
def dob3 : Matcher :=
  seqM bAssert (seqM monthName (seqM (repCls Char.isAlpha 0 none)
    (seqM (optM (oneCls (· == '.'))) (seqM (repCls spaceC 1 none)
      (seqM (repCls digitC 1 (some 2)) (seqM (optM (oneCls (· == ',')))
        (seqM (repCls spaceC 1 none) (seqM yearM bAssert))))))))

/-- class `[\w\s]`. -/
def wsC (c : Char) : Bool := wordC c || spaceC c

/-- the street-suffix alternation, in the regex's left-to-right order. -/
def streetSuffix : Matcher :=
  altM [litCI ['S','t','r','e','e','t'], litCI ['S','t'],
        litCI ['A','v','e','n','u','e'], litCI ['A','v','e'],
        litCI ['R','o','a','d'], litCI ['R','d'],
        litCI ['B','o','u','l','e','v','a','r','d'], litCI ['B','l','v','d'],
        litCI ['D','r','i','v','e'], litCI ['D','r'],
        litCI ['L','a','n','e'], litCI ['L','n'],
        litCI ['W','a','y'],
        litCI ['C','o','u','r','t'], litCI ['C','t']]

/-- `PII_PATTERNS["ADDRESS"][0]`:
    `\b\d{1,5}\s+[\w\s]{1,30}\s+(Street|St|...|Ct)\.?\b` with `re.IGNORECASE`. -/
def addr1 : Matcher :=
  seqM bAssert (seqM (repCls digitC 1 (some 5)) (seqM (repCls spaceC 1 none)
    (seqM (repCls wsC 1 (some 30)) (seqM (repCls spaceC 1 none)
      (seqM streetSuffix (seqM (optM (oneCls (· == '.'))) bAssert))))))

/-- `PII_PATTERNS["ADDRESS"][1]`:
    `\b[A-Z][a-z]+,?\s+[A-Z]{2}\s+\d{5}(-\d{4})?\b` with `re.IGNORECASE`,
    under which all three letter classes match any ASCII letter. -/
def addr2 : Matcher :=
  seqM bAssert (seqM (oneCls Char.isAlpha) (seqM (repCls Char.isAlpha 1 none)
    (seqM (optM (oneCls (· == ','))) (seqM (repCls spaceC 1 none)
      (seqM (repCls Char.isAlpha 2 (some 2)) (seqM (repCls spaceC 1 none)
        (seqM (repCls digitC 5 (some 5))
          (seqM (optM (seqM (oneCls (· == '-')) (repCls digitC 4 (some 4)))) bAssert))))))))

/-- the name rule `r'\b' + re.escape(name) + r'\b'` with `re.IGNORECASE`. -/
def namePat (n : List Char) : Matcher := seqM bAssert (seqM (litCI n) bAssert)

/-- `COMMON_NAMES` from the source. -/
def COMMON_NAMES : List (List Char) :=
  ["James".toList, "John".toList, "Robert".toList, "Michael".toList,
   "William".toList, "David".toList, "Richard".toList, "Joseph".toList,
   "Thomas".toList, "Charles".toList,
   "Mary".toList, "Patricia".toList, "Jennifer".toList, "Linda".toList,
   "Barbara".toList, "Elizabeth".toList, "Susan".toList, "Jessica".toList,
   "Sarah".toList, "Karen".toList,
   "Christopher".toList, "Daniel".toList, "Matthew".toList, "Anthony".toList,
   "Mark".toList, "Donald".toList, "Steven".toList, "Paul".toList,
   "Andrew".toList, "Joshua".toList]

/-- The `self.detection` dict: one boolean toggle per built-in category,
    keyed as in `get_detection_settings`. -/
structure Config where
  ssn : Bool
  names : Bool
  phone : Bool
  email : Bool
  address : Bool
  dob : Bool
  bank : Bool
  credit_card : Bool
  deriving DecidableEq, Repr

/-- The candidate list built by `find_pii` before sorting and dedup: the
    category blocks in the source's order (SSN, PHONE, EMAIL, CREDIT_CARD,
    BANK_ACCOUNT, DOB, ADDRESS, NAME, then the custom words in order). -/
def candidates (cfg : Config) (words : List (List Char)) (cs : List Char) :
    List Detection :=
  (if cfg.ssn then detsOfPats "SSN" [ssn1, ssn2] cs else []) ++
  (if cfg.phone then detsOf "PHONE" phonePat cs else []) ++
  (if cfg.email then detsOf "EMAIL" emailPat cs else []) ++
  (if cfg.credit_card then detsOf "CREDIT_CARD" ccPat cs else []) ++
  (if cfg.bank then detsOf "BANK_ACCOUNT" bankPat cs else []) ++
  (if cfg.dob then detsOfPats "DOB" [dob1, dob2, dob3] cs else []) ++
  (if cfg.address then detsOfPats "ADDRESS" [addr1, addr2] cs else []) ++
  (if cfg.names then concatMap (fun n => detsOf "NAME" (namePat n) cs) COMMON_NAMES
   else []) ++
  concatMap (fun w => detsOf "CUSTOM" (litCI w) cs) words

/-- The dedup key: `(d["start"], d["text"])`. -/
def dkey (d : Detection) : Nat × List Char := (d.start, d.text)

/-- The dedup loop of `find_pii`: `seen` is the set already kept. -/
def dedupAux (seen : List (Nat × List Char)) : List Detection → List Detection
  | [] => []
  | d :: ds =>
    if dkey d ∈ seen then dedupAux seen ds
    else d :: dedupAux (dkey d :: seen) ds

/-- Stable insertion of `d` before the first element with a `start` that is
    not smaller. -/
def ordIns (d : Detection) : List Detection → List Detection
  | [] => [d]
  | b :: l => if d.start ≤ b.start then d :: b :: l else b :: ordIns d l

/-- Stable sort by `start` — the model of Python's stable
    `sorted(detections, key=lambda x: x["start"])`. -/
def sortD : List Detection → List Detection
  | [] => []
  | d :: l => ordIns d (sortD l)

/-- The pure scan underlying `WorkerThread.find_pii`: candidates in scan
    order, stably sorted by `start`, then deduplicated keeping the first
    occurrence of each `(start, text)` key. -/
def scanP (cfg : Config) (words : List (List Char)) (cs : List Char) :
    List Detection :=
  dedupAux [] (sortD (candidates cfg words cs))

/- ---------- the WorkerThread batch run, modelled ---------- -/

/-- The worker's constructor state.  `files` pairs each selected path with
    the outcome of `fitz.open` on it (a page list, or the message of the
    exception raised); `output_dir = none` models the preview mode test
    `self.is_preview = output_dir is None`. -/
structure WorkerThread where
  files : List (String × Except String (List (List Char)))
  detection : Config
  custom_words : List (List Char)
  output_dir : Option String
  preview_data : List (String × List Detection)
  output_mode : String

/-- `WorkerThread.find_pii`: reads only `self.detection` and
    `self.custom_words`. -/
def WorkerThread.find_pii (w : WorkerThread) (text : List Char) : List Detection :=
  scanP w.detection w.custom_words text

def WorkerThread.is_preview (w : WorkerThread) : Bool := w.output_dir.isNone

/-- The `results` dict of `run`, plus two ghost logs recording the
    side effects on the document-mutation API: `applied` records, per
    redacted document, the `page_dets` list handed to the redaction loop of
    each page, and `reports` records the data written to each audit file
    (source name, the `Items redacted` count, the listed items). -/
structure RunResults where
  detected : String
  output : String
  stats : List (String × Nat)
  preview_data : List (String × List Detection)
  applied : List (String × List (List Detection))
  reports : List (String × Nat × List Detection)

def initResults : RunResults := ⟨"", "", [], [], [], []⟩

/-- `results["stats"][t] = results["stats"].get(t, 0) + 1` on an
    insertion-ordered dict. -/
def bumpStat : List (String × Nat) → String → List (String × Nat)
  | [], t => [(t, 1)]
  | (s, n) :: rest, t =>
    if s == t then (s, n + 1) :: rest else (s, n) :: bumpStat rest t

/-- Concatenation of a list of strings (the loop of `+=` appends). -/
def strJoin : List String → String
  | [] => ""
  | s :: l => s ++ strJoin l

/-- Dict read, first binding wins. -/
def dictGet? (m : List (String × α)) (k : String) : Option α :=
  (m.find? (fun p => p.1 == k)).map (·.2)

/-- Dict write: overwrite in place, else append. -/
def dictSet : List (String × α) → String → α → List (String × α)
  | [], k, v => [(k, v)]
  | (k0, v0) :: rest, k, v =>
    if k0 == k then (k0, v) :: rest else (k0, v0) :: dictSet rest k v

/-- Lines 301-305 of the source: enumerate the pages, scan each page's text
    and stamp each detection with its 1-based page number. -/
def file_detections (cfg : Config) (words : List (List Char))
    (pages : List (List Char)) : List Detection :=
  concatMap (fun pi : Nat × List Char =>
      (scanP cfg words pi.2).map (fun d => { d with page := pi.1 + 1 }))
    pages.enum

/-- Line 319: `dets = self.preview_data.get(filepath, file_detections)` —
    the planner: the cached preview detections when the cache holds the
    document, else the fresh ones. -/
def plan (preview_data : List (String × List Detection)) (filepath : String)
    (fresh : List Detection) : List Detection :=
  (dictGet? preview_data filepath).getD fresh

/-- Line 322: `page_dets = [d for d in dets if d.get("page") == page_num + 1]`. -/
def page_dets (dets : List Detection) (page_num : Nat) : List Detection :=
  dets.filter (fun d => d.page == page_num + 1)

def sep45 : String := String.mk (List.replicate 45 '=')

def sep50 : String := String.mk (List.replicate 50 '=')

/-- The per-document banner appended to `results["detected"]`. -/
def hdrLine (filename : String) : String :=
  sep45 ++ "\n" ++ filename ++ "\n" ++ sep45 ++ "\n\n"

/-- One finding line: `  Page N: [TYPE] "text"`. -/
def detLine (d : Detection) : String :=
  "  Page " ++ toString d.page ++ ": [" ++ d.type ++ "] \"" ++
    String.mk d.text ++ "\"\n"

/-- `Path(filepath).stem`: the final component without its last extension
    (the model identifies the path with its base name). -/
def stemOf (s : String) : String :=
  let r := s.toList.reverse
  let r2 := r.dropWhile (fun c => !(c == '.'))
  match r2 with
  | [] => s
  | _ :: rest => String.mk rest.reverse

/-- The two output paths of a redacted document. -/
def outPathOf (dir filename : String) : String :=
  dir ++ "/" ++ stemOf filename ++ "_REDACTED.pdf"

def reportPathOf (dir filename : String) : String :=
  dir ++ "/" ++ stemOf filename ++ "_report.txt"

/-- The body of the per-document loop of `WorkerThread.run`: the banner,
    then the guarded block (an open failure jumps to the `except` arm),
    then the closing blank line.  In redact mode the planner result is
    filtered per page and handed to the redaction loop (ghost-logged in
    `applied`), and the audit report data is ghost-logged in `reports`. -/
def processDoc (w : WorkerThread) (results : RunResults)
    (item : String × Except String (List (List Char))) : RunResults :=
  let filename := item.1
  let r1 := { results with detected := results.detected ++ hdrLine filename }
  let r2 :=
    match item.2 with
    | .error e =>
      let ra := { r1 with detected := r1.detected ++ "  ERROR: " ++ e ++ "\n" }
      if w.is_preview then ra
      else { ra with output := ra.output ++ "✗ " ++ filename ++ ": " ++ e ++ "\n\n" }
    | .ok pages =>
      let fd := file_detections w.detection w.custom_words pages
      let rb := { r1 with
        stats := fd.foldl (fun s (d : Detection) => bumpStat s d.type) r1.stats,
        preview_data := dictSet r1.preview_data filename fd }
      let rc := { rb with detected := rb.detected ++
        (if fd.isEmpty then "  No PII detected.\n"
         else strJoin (fd.map detLine)) }
      if w.is_preview then rc
      else
        let dets := plan w.preview_data filename fd
        let dir := w.output_dir.getD ""
        { rc with
          applied := rc.applied ++
            [(filename, (List.range pages.length).map (page_dets dets))],
          reports := rc.reports ++ [(filename, dets.length, dets)],
          output := rc.output ++ "✓ " ++ filename ++ "\n  → " ++
            outPathOf dir filename ++ "\n  → " ++ reportPathOf dir filename ++ "\n\n" }
  { r2 with detected := r2.detected ++ "\n" }

/-- `WorkerThread.run`: the sequential per-document loop. -/
def WorkerThread.run (w : WorkerThread) : RunResults :=
  w.files.foldl (processDoc w) initResults

/-- The contribution of one document to `results["detected"]`. -/
def docDetectedStr (w : WorkerThread)
    (item : String × Except String (List (List Char))) : String :=
  hdrLine item.1 ++
  (match item.2 with
   | .error e => "  ERROR: " ++ e ++ "\n"
   | .ok pages =>
     let fd := file_detections w.detection w.custom_words pages
     if fd.isEmpty then "  No PII detected.\n" else strJoin (fd.map detLine)) ++
  "\n"

/-- The contribution of one document to `results["output"]`. -/
def docOutputStr (w : WorkerThread)
    (item : String × Except String (List (List Char))) : String :=
  if w.is_preview then ""
  else
    match item.2 with
    | .error e => "✗ " ++ item.1 ++ ": " ++ e ++ "\n\n"
    | .ok _ =>
      let dir := w.output_dir.getD ""
      "✓ " ++ item.1 ++ "\n  → " ++ outPathOf dir item.1 ++ "\n  → " ++
        reportPathOf dir item.1 ++ "\n\n"

/-- The number of fresh detections a document contributes to the stats. -/
def freshCount (w : WorkerThread)
    (item : String × Except String (List (List Char))) : Nat :=
  match item.2 with
  | .error _ => 0
  | .ok pages => (file_detections w.detection w.custom_words pages).length

/-- The audit-report data a document contributes (none in preview mode or
    when its open fails). -/
def reportOf (w : WorkerThread)
    (item : String × Except String (List (List Char))) :
    Option (String × Nat × List Detection) :=
  if w.is_preview then none
  else
    match item.2 with
    | .error _ => none
    | .ok pages =>
      let dets := plan w.preview_data item.1
        (file_detections w.detection w.custom_words pages)
      some (item.1, dets.length, dets)

/-- Sum of the per-category counters. -/
def statsTotal (s : List (String × Nat)) : Nat := (s.map (·.2)).sum

/- ---------- auxiliary definitions used by the theorems ---------- -/

/-- leading comparison used by the stable sort. -/
def leS (a b : Detection) : Prop := a.start ≤ b.start

/-- One-pass form of the dedup: keep the head, drop every later element
    with the same `(start, text)` key.  Used as a proof-side bridge for
    `dedupAux`. -/
def dedupK : List Detection → List Detection
  | [] => []
  | d :: ds => d :: dedupK (ds.filter (fun e => !(dkey e == dkey d)))
termination_by l => l.length
decreasing_by
  simp only [List.length_cons]
  exact Nat.lt_succ_of_le (List.length_filter_le _ _)

/-- The built-in categories a checkbox can disable (CUSTOM has no toggle). -/
inductive PIICat where
  | ssn | names | phone | email | address | dob | bank | credit_card
  deriving DecidableEq, Repr

/-- The `"type"` string the scanner attaches for each category. -/
def tagOf : PIICat → String
  | .ssn => "SSN"
  | .names => "NAME"
  | .phone => "PHONE"
  | .email => "EMAIL"
  | .address => "ADDRESS"
  | .dob => "DOB"
  | .bank => "BANK_ACCOUNT"
  | .credit_card => "CREDIT_CARD"

/-- Turn one category's toggle off. -/
def disable (c : PIICat) (cfg : Config) : Config :=
  match c with
  | .ssn => { cfg with ssn := false }
  | .names => { cfg with names := false }
  | .phone => { cfg with phone := false }
  | .email => { cfg with email := false }
  | .address => { cfg with address := false }
  | .dob => { cfg with dob := false }
  | .bank => { cfg with bank := false }
  | .credit_card => { cfg with credit_card := false }

/-- The scan as §4.1 of the spec words it: deduplicate the candidate list
    first (keeping, per `(start_offset, matched_text)` key, the candidate
    produced first in scan order), then stably sort by `start_offset`
    (ties retaining insertion order). -/
def scanSpec (cfg : Config) (words : List (List Char)) (cs : List Char) :
    List Detection :=
  sortD (dedupAux [] (candidates cfg words cs))

/-- Declarative left-to-right non-overlapping scan for a literal phrase:
    at each position, emit a case-insensitive occurrence and resume after
    it, else advance one position. -/
def scanOccsFrom (w cs : List Char) : Nat → Nat → List Nat
  | _, 0 => []
  | i, fuel + 1 =>
    if ciAt w cs i then i :: scanOccsFrom w cs (i + w.length) fuel
    else scanOccsFrom w cs (i + 1) fuel

def scanOccs (w cs : List Char) : List Nat := scanOccsFrom w cs 0 (cs.length + 1)

/-- Every position at which the phrase occurs case-insensitively as a
    literal substring (overlapping occurrences included). -/
def subOccs (w cs : List Char) : List Nat :=
  (List.range (cs.length + 1)).filter (fun i => ciAt w cs i)

/-- Is the character at index `i` of `l` exactly `c`? -/
def chAt (l : List Char) (i : Nat) (c : Char) : Bool := l[i]? == some c

/-- Is the character at index `i` of `l` a digit? -/
def digitAt (l : List Char) (i : Nat) : Bool :=
  match l[i]? with
  | some c => digitC c
  | none => false

/-- Is `19xx` or `20xx` (two more digits) present at index `i` of `l`? -/
def isYearAt (l : List Char) (i : Nat) : Bool :=
  ((chAt l i '1' && chAt l (i+1) '9') || (chAt l i '2' && chAt l (i+1) '0'))
    && digitAt l (i+2) && digitAt l (i+3)

/-- Does the text contain a 19xx/20xx four-digit year anywhere? -/
def hasYear (l : List Char) : Bool := (List.range l.length).any (isYearAt l)

/- ---------- concrete fixtures for witnesses and counterexamples ---------- -/

/-- All eight toggles on. -/
def cfgAll : Config :=
  { ssn := true, names := true, phone := true, email := true,
    address := true, dob := true, bank := true, credit_card := true }

/-- Only the date-of-birth toggle on. -/
def cfgDobOnly : Config :=
  { ssn := false, names := false, phone := false, email := false,
    address := false, dob := true, bank := false, credit_card := false }

/-- A page on which a 16-digit run is matched by both the credit-card and
    the bank-account rule at the same `(start, text)` key. -/
def ccBankTxt : List Char := "1234567890123456".toList

/-- One page holding one SSN. -/
def ssnPage : List Char := "SSN 123-45-6789".toList

/-- A single-document redact worker whose preview cache holds an empty
    detection list for the document (a preview ran with nothing enabled),
    while the live config detects one SSN. -/
def wStale : WorkerThread :=
  { files := [("a.pdf", Except.ok [ssnPage])],
    detection := cfgAll,
    custom_words := [],
    output_dir := some "out",
    preview_data := [("a.pdf", [])],
    output_mode := "black" }

/- ================= theorems ================= -/

/- basic facts about the dedup loop of find_pii -/

theorem dedupAux_sublist (l : List Detection) (seen : List (Nat × List Char)) :
    List.Sublist (dedupAux seen l) l := by
  induction l generalizing seen with
  | nil => simp [dedupAux]
  | cons d ds ih =>
    by_cases h : dkey d ∈ seen
    · simp only [dedupAux, if_pos h]
      exact List.Sublist.cons d (ih seen)
    · simp only [dedupAux, if_neg h]
      exact List.Sublist.cons₂ d (ih _)

theorem dedupAux_keys (l : List Detection) : ∀ seen,
    ((dedupAux seen l).Pairwise (fun a b => dkey a ≠ dkey b)) ∧
    (∀ d ∈ dedupAux seen l, dkey d ∉ seen) := by
  induction l with
  | nil => intro seen; simp [dedupAux]
  | cons d ds ih =>
    intro seen
    by_cases h : dkey d ∈ seen
    · simpa [dedupAux, if_pos h] using ih seen
    · simp only [dedupAux, if_neg h]
      refine ⟨List.pairwise_cons.mpr ⟨?_, (ih _).1⟩, ?_⟩
      · intro e he hk
        exact (ih (dkey d :: seen)).2 e he (by rw [← hk]; exact List.mem_cons_self _ _)
      · intro e he
        rcases List.mem_cons.mp he with rfl | he2
        · exact h
        · intro hmem
          exact (ih (dkey d :: seen)).2 e he2 (List.mem_cons_of_mem _ hmem)

/- basic facts about the stable sort of find_pii -/

theorem mem_ordIns {b a : Detection} {l : List Detection} :
    b ∈ ordIns a l ↔ b = a ∨ b ∈ l := by
  induction l with
  | nil => simp [ordIns]
  | cons c l ih =>
    by_cases h : a.start ≤ c.start
    · simp [ordIns, if_pos h, or_comm, or_left_comm]
    · simp only [ordIns, if_neg h, List.mem_cons, ih]
      tauto

theorem pairwise_ordIns (a : Detection) (l : List Detection)
    (h : l.Pairwise leS) : (ordIns a l).Pairwise leS := by
  induction l with
  | nil => simp [ordIns]
  | cons b l ih =>
    rcases List.pairwise_cons.mp h with ⟨hb, hl⟩
    by_cases hab : a.start ≤ b.start
    · simp only [ordIns, if_pos hab]
      refine List.pairwise_cons.mpr ⟨?_, h⟩
      intro x hx
      rcases List.mem_cons.mp hx with rfl | hx2
      · exact hab
      · exact Nat.le_trans hab (hb x hx2)
    · simp only [ordIns, if_neg hab]
      refine List.pairwise_cons.mpr ⟨?_, ih hl⟩
      intro x hx
      rcases mem_ordIns.mp hx with rfl | hx2
      · exact Nat.le_of_not_le hab
      · exact hb x hx2

theorem pairwise_sortD (l : List Detection) : (sortD l).Pairwise leS := by
  induction l with
  | nil => simp [sortD]
  | cons d l ih => exact pairwise_ordIns d _ ih

theorem perm_ordIns (a : Detection) (l : List Detection) :
    (ordIns a l).Perm (a :: l) := by
  induction l with
  | nil => simp [ordIns]
  | cons b l ih =>
    by_cases h : a.start ≤ b.start
    · simp [ordIns, if_pos h]
    · simp only [ordIns, if_neg h]
      exact (ih.cons b).trans (List.Perm.swap a b l)

theorem perm_sortD (l : List Detection) : (sortD l).Perm l := by
  induction l with
  | nil => simp [sortD]
  | cons d l ih => exact (perm_ordIns d (sortD l)).trans (ih.cons d)

/-- C3: in every output of the scan, no two detections share both
    `start_offset` and `matched_text` — the dedup loop keeps at most one
    detection per `(start, text)` key. -/
theorem dedup_invariant (cfg : Config) (words : List (List Char)) (cs : List Char) :
    (scanP cfg words cs).Pairwise
      (fun a b => ¬(a.start = b.start ∧ a.text = b.text)) := by
  have h := (dedupAux_keys (sortD (candidates cfg words cs)) []).1
  refine h.imp ?_
  intro a b hk hc
  exact hk (by simp [dkey, hc.1, hc.2])

/-- C4: every output of the scan is sorted by `start_offset` in
    non-decreasing order: consecutive elements satisfy
    `start_offset[i] <= start_offset[i+1]`. -/
theorem ordering_invariant (cfg : Config) (words : List (List Char)) (cs : List Char) :
    (scanP cfg words cs).Chain' (fun a b => a.start ≤ b.start) := by
  have hp : (scanP cfg words cs).Pairwise leS :=
    (pairwise_sortD (candidates cfg words cs)).sublist (dedupAux_sublist _ _)
  exact hp.chain'

/-- C5: `find_pii` is a pure function of the page text, the detection
    toggles and the custom-word list: two workers agreeing on
    `self.detection` and `self.custom_words` scan every page identically,
    whatever their other state (files, output dir, preview cache, mode). -/
theorem scan_deterministic (w1 w2 : WorkerThread)
    (hdet : w1.detection = w2.detection) (hcw : w1.custom_words = w2.custom_words)
    (text : List Char) : w1.find_pii text = w2.find_pii text := by
  unfold WorkerThread.find_pii
  rw [hdet, hcw]

theorem scan_deterministic_witness :
    ({ wStale with
        files := []
        output_dir := none
        preview_data := []
        output_mode := "labels" } : WorkerThread).find_pii ssnPage
      = wStale.find_pii ssnPage :=
  scan_deterministic _ wStale rfl rfl ssnPage

/-- C1: the planner of the redact pass (line 319, `preview_data.get`) applies
    per page exactly the cached preview detections of that page when the
    cache holds the document — whatever the live config and custom words
    computed freshly at redact time — and exactly the fresh detections of
    that page when it does not; a preview run populates the cache for a
    document with precisely its `file_detections`. -/
theorem preview_redact_parity (cfgP cfgR : Config) (wsP wsR : List (List Char))
    (pages : List (List Char)) (fp : String)
    (cache : List (String × List Detection)) (n : Nat) :
    (dictGet? cache fp = some (file_detections cfgP wsP pages) →
      page_dets (plan cache fp (file_detections cfgR wsR pages)) n
        = (file_detections cfgP wsP pages).filter (fun d => d.page == n + 1)) ∧
    (dictGet? cache fp = none →
      page_dets (plan cache fp (file_detections cfgR wsR pages)) n
        = (file_detections cfgR wsR pages).filter (fun d => d.page == n + 1)) ∧
    (WorkerThread.run
        { files := [(fp, Except.ok pages)], detection := cfgP,
          custom_words := wsP, output_dir := none, preview_data := [],
          output_mode := "black" }).preview_data
      = [(fp, file_detections cfgP wsP pages)] := by
  refine ⟨?_, ?_, ?_⟩
  · intro h; simp [plan, page_dets, h]
  · intro h; simp [plan, page_dets, h]
  · rfl

theorem preview_redact_parity_witness :
    page_dets (plan [("a.pdf", file_detections cfgAll [] [ssnPage])] "a.pdf"
        (file_detections cfgDobOnly [] [ssnPage])) 0
      = (file_detections cfgAll [] [ssnPage]).filter (fun d => d.page == 1) :=
  (preview_redact_parity cfgAll cfgDobOnly [] [] [ssnPage] "a.pdf"
      [("a.pdf", file_detections cfgAll [] [ssnPage])] 0).1 rfl

/- facts about the per-document loop of run -/

theorem statsTotal_bump (s : List (String × Nat)) (t : String) :
    statsTotal (bumpStat s t) = statsTotal s + 1 := by
  induction s with
  | nil => simp [bumpStat, statsTotal]
  | cons p rest ih =>
    rcases p with ⟨s0, n⟩
    by_cases h : s0 == t
    · simp [bumpStat, h, statsTotal]
      omega
    · simp [bumpStat, h, statsTotal] at ih ⊢
      omega

theorem statsTotal_foldl (fd : List Detection) : ∀ s0 : List (String × Nat),
    statsTotal (fd.foldl (fun s (d : Detection) => bumpStat s d.type) s0)
      = statsTotal s0 + fd.length := by
  induction fd with
  | nil => intro s0; simp
  | cons d fd ih =>
    intro s0
    simp only [List.foldl_cons, ih, statsTotal_bump, List.length_cons]
    omega

theorem processDoc_detected (w : WorkerThread) (r : RunResults)
    (item : String × Except String (List (List Char))) :
    (processDoc w r item).detected = r.detected ++ docDetectedStr w item := by
  rcases item with ⟨name, res⟩
  cases res with
  | error e =>
    by_cases hw : w.is_preview <;>
      simp [processDoc, docDetectedStr, hw, String.append_assoc]
  | ok pages =>
    by_cases hw : w.is_preview <;>
      simp [processDoc, docDetectedStr, hw, String.append_assoc]

theorem processDoc_output (w : WorkerThread) (r : RunResults)
    (item : String × Except String (List (List Char))) :
    (processDoc w r item).output = r.output ++ docOutputStr w item := by
  rcases item with ⟨name, res⟩
  cases res with
  | error e =>
    by_cases hw : w.is_preview <;>
      simp [processDoc, docOutputStr, hw, String.append_assoc]
  | ok pages =>
    by_cases hw : w.is_preview <;>
      simp [processDoc, docOutputStr, hw, String.append_assoc]

theorem processDoc_stats (w : WorkerThread) (r : RunResults)
    (item : String × Except String (List (List Char))) :
    statsTotal (processDoc w r item).stats = statsTotal r.stats + freshCount w item := by
  rcases item with ⟨name, res⟩
  cases res with
  | error e =>
    by_cases hw : w.is_preview <;> simp [processDoc, freshCount, hw]
  | ok pages =>
    by_cases hw : w.is_preview <;>
      simp [processDoc, freshCount, hw, statsTotal_foldl]

theorem processDoc_reports (w : WorkerThread) (r : RunResults)
    (item : String × Except String (List (List Char))) :
    (processDoc w r item).reports = r.reports ++ (reportOf w item).toList := by
  rcases item with ⟨name, res⟩
  cases res with
  | error e =>
    by_cases hw : w.is_preview <;> simp [processDoc, reportOf, hw]
  | ok pages =>
    by_cases hw : w.is_preview <;> simp [processDoc, reportOf, hw]

theorem run_detected_aux (w : WorkerThread) :
    ∀ (files : List (String × Except String (List (List Char)))) (r : RunResults),
    (files.foldl (processDoc w) r).detected
      = r.detected ++ strJoin (files.map (docDetectedStr w)) := by
  intro files
  induction files with
  | nil => intro r; simp [strJoin]
  | cons a l ih =>
    intro r
    simp only [List.foldl_cons, List.map_cons, strJoin, ih,
      processDoc_detected, String.append_assoc]

theorem run_output_aux (w : WorkerThread) :
    ∀ (files : List (String × Except String (List (List Char)))) (r : RunResults),
    (files.foldl (processDoc w) r).output
      = r.output ++ strJoin (files.map (docOutputStr w)) := by
  intro files
  induction files with
  | nil => intro r; simp [strJoin]
  | cons a l ih =>
    intro r
    simp only [List.foldl_cons, List.map_cons, strJoin, ih,
      processDoc_output, String.append_assoc]

theorem run_stats_aux (w : WorkerThread) :
    ∀ (files : List (String × Except String (List (List Char)))) (r : RunResults),
    statsTotal (files.foldl (processDoc w) r).stats
      = statsTotal r.stats + (files.map (freshCount w)).sum := by
  intro files
  induction files with
  | nil => intro r; simp
  | cons a l ih =>
    intro r
    simp only [List.foldl_cons, List.map_cons, List.sum_cons, ih, processDoc_stats]
    omega

theorem run_reports_aux (w : WorkerThread) :
    ∀ (files : List (String × Except String (List (List Char)))) (r : RunResults),
    (files.foldl (processDoc w) r).reports
      = r.reports ++ files.filterMap (reportOf w) := by
  intro files
  induction files with
  | nil => intro r; simp
  | cons a l ih =>
    intro r
    simp only [List.foldl_cons, ih, processDoc_reports, List.filterMap_cons]
    cases h : reportOf w a <;> simp [h, Option.toList]

/-- C7: per-document error isolation.  The run's logs decompose into one
    independent contribution per selected document — a failing document
    never stops later ones from being processed, and the run completes with
    every success and failure recorded: a document whose open raised `e`
    contributes exactly the human-readable `ERROR` line to the findings log
    and the `✗ name: e` line to the output log (redact mode), while every
    other document's contribution is untouched by the failure. -/
theorem error_isolation (w : WorkerThread) :
    w.run.detected = strJoin (w.files.map (docDetectedStr w)) ∧
    w.run.output = strJoin (w.files.map (docOutputStr w)) ∧
    (∀ name e, docDetectedStr w (name, Except.error e)
        = hdrLine name ++ "  ERROR: " ++ e ++ "\n" ++ "\n") ∧
    (∀ name e, docOutputStr w (name, Except.error e)
        = if w.is_preview then "" else "✗ " ++ name ++ ": " ++ e ++ "\n\n") := by
  refine ⟨?_, ?_, ?_, ?_⟩
  · simpa [initResults] using run_detected_aux w w.files initResults
  · simpa [initResults] using run_output_aux w w.files initResults
  · intro name e; simp [docDetectedStr, String.append_assoc]
  · intro name e
    by_cases hw : w.is_preview <;> simp [docOutputStr, hw]

/-- C10: during a redact run the per-category stats (and hence the batch
    total) are accumulated from the fresh scan of each document, while the
    persisted audit report's count and listing come from the planned
    (cached-if-present) list; on a stale cache the two disagree: `wStale`
    redacts with a cached empty preview list, its audit report says 0 items,
    but the summary stats count the 1 fresh SSN detection. -/
theorem stats_vs_report :
    (∀ w : WorkerThread,
        statsTotal w.run.stats = (w.files.map (freshCount w)).sum ∧
        w.run.reports = w.files.filterMap (reportOf w)) ∧
    statsTotal wStale.run.stats = 1 ∧
    wStale.run.reports = [("a.pdf", 0, [])] ∧
    statsTotal wStale.run.stats ≠ (wStale.run.reports.map (fun r => r.2.1)).sum := by
  refine ⟨?_, ?_, ?_, ?_⟩
  · intro w
    constructor
    · simpa [initResults, statsTotal] using run_stats_aux w w.files initResults
    · simpa [initResults] using run_reports_aux w w.files initResults
  · decide
  · decide
  · decide

/- the dedup loop versus the spec's dedup-then-sort order (C6 machinery) -/

theorem dedupK_sublist_aux : ∀ (n : Nat) (l : List Detection), l.length ≤ n →
    List.Sublist (dedupK l) l := by
  intro n
  induction n with
  | zero =>
    intro l hl
    have : l = [] := List.length_eq_zero.mp (Nat.le_zero.mp hl)
    subst this
    simp [dedupK]
  | succ n ih =>
    intro l hl
    match l with
    | [] => simp [dedupK]
    | d :: ds =>
      rw [dedupK]
      refine List.Sublist.cons₂ d ?_
      have h1 := ih (ds.filter (fun e => !(dkey e == dkey d)))
        (Nat.le_trans (List.length_filter_le _ _) (Nat.le_of_succ_le_succ hl))
      exact h1.trans (List.filter_sublist ds)

theorem dedupK_sublist (l : List Detection) : List.Sublist (dedupK l) l :=
  dedupK_sublist_aux l.length l Nat.le.refl

theorem dedupAux_eq_dedupK_filter (l : List Detection) : ∀ seen,
    dedupAux seen l = dedupK (l.filter (fun d => !(decide (dkey d ∈ seen)))) := by
  induction l with
  | nil => intro seen; simp [dedupAux, dedupK]
  | cons d ds ih =>
    intro seen
    by_cases h : dkey d ∈ seen
    · rw [dedupAux, if_pos h, ih seen]
      congr 1
      simp [List.filter_cons, h]
    · rw [dedupAux, if_neg h, ih (dkey d :: seen)]
      have hcons : (d :: ds).filter (fun e => !(decide (dkey e ∈ seen)))
          = d :: ds.filter (fun e => !(decide (dkey e ∈ seen))) := by
        simp [List.filter_cons, h]
      rw [hcons, dedupK]
      congr 2
      rw [List.filter_filter]
      apply List.filter_congr
      intro x _
      by_cases hx1 : dkey x = dkey d <;> by_cases hx2 : dkey x ∈ seen <;>
        simp [hx1, hx2]

theorem dedupAux_nil_eq_dedupK (l : List Detection) : dedupAux [] l = dedupK l := by
  rw [dedupAux_eq_dedupK_filter l []]
  congr 1
  simp

theorem ordIns_of_le (a : Detection) (l : List Detection)
    (h : ∀ x ∈ l, a.start ≤ x.start) : ordIns a l = a :: l := by
  cases l with
  | nil => rfl
  | cons b l => simp [ordIns, h b (List.mem_cons_self b l)]

theorem filter_ordIns_pos (p : Detection → Bool) (a : Detection) (l : List Detection)
    (ha : p a = true) (h : l.Pairwise leS) :
    (ordIns a l).filter p = ordIns a (l.filter p) := by
  induction l with
  | nil => simp [ordIns, ha]
  | cons b l ih =>
    rcases List.pairwise_cons.mp h with ⟨hb, hl⟩
    by_cases hab : a.start ≤ b.start
    · rw [ordIns, if_pos hab]
      have hfront : ordIns a ((b :: l).filter p) = a :: (b :: l).filter p := by
        apply ordIns_of_le
        intro x hx
        have hx2 := List.mem_of_mem_filter hx
        rcases List.mem_cons.mp hx2 with rfl | hx3
        · exact hab
        · exact Nat.le_trans hab (hb x hx3)
      rw [hfront]
      simp [List.filter_cons, ha]
    · rw [ordIns, if_neg hab]
      cases hpb : p b with
      | true =>
        have hstep : ordIns a (b :: l.filter p) = b :: ordIns a (l.filter p) := by
          rw [ordIns, if_neg hab]
        simp [List.filter_cons, hpb, hstep, ih hl]
      | false =>
        simp [List.filter_cons, hpb, ih hl]

theorem filter_ordIns_neg (p : Detection → Bool) (a : Detection) (l : List Detection)
    (ha : p a = false) : (ordIns a l).filter p = l.filter p := by
  induction l with
  | nil => simp [ordIns, List.filter_cons, ha]
  | cons b l ih =>
    by_cases hab : a.start ≤ b.start
    · rw [ordIns, if_pos hab]
      simp [List.filter_cons, ha]
    · rw [ordIns, if_neg hab]
      simp [List.filter_cons, ih]

theorem filter_sortD (p : Detection → Bool) (l : List Detection) :
    (sortD l).filter p = sortD (l.filter p) := by
  induction l with
  | nil => simp [sortD]
  | cons a l ih =>
    cases ha : p a with
    | true =>
      rw [sortD, filter_ordIns_pos p a _ ha (pairwise_sortD l), ih]
      have : (a :: l).filter p = a :: l.filter p := by simp [List.filter_cons, ha]
      rw [this, sortD]
    | false =>
      rw [sortD, filter_ordIns_neg p a _ ha, ih]
      have : (a :: l).filter p = l.filter p := by simp [List.filter_cons, ha]
      rw [this]

theorem dkey_ne_of_start_ne {a b : Detection} (h : a.start ≠ b.start) :
    (dkey a == dkey b) = false :=
  beq_eq_false_iff_ne.mpr (fun hk => h (congrArg Prod.fst hk))

theorem filter_swap (p q : Detection → Bool) (l : List Detection) :
    (l.filter p).filter q = (l.filter q).filter p := by
  rw [List.filter_filter, List.filter_filter]
  exact List.filter_congr (fun x _ => Bool.and_comm _ _)

theorem dedupK_ordIns_aux (a : Detection) : ∀ (n : Nat) (m : List Detection),
    m.length ≤ n → m.Pairwise leS →
    dedupK (ordIns a m)
      = ordIns a (dedupK (m.filter (fun e => !(dkey e == dkey a)))) := by
  intro n
  induction n with
  | zero =>
    intro m hm _
    have : m = [] := List.length_eq_zero.mp (Nat.le_zero.mp hm)
    subst this
    simp [ordIns, dedupK]
  | succ n ih =>
    intro m hm hpw
    match m with
    | [] => simp [ordIns, dedupK]
    | b :: m2 =>
      rcases List.pairwise_cons.mp hpw with ⟨hb, hm2⟩
      by_cases hab : a.start ≤ b.start
      · rw [ordIns, if_pos hab, dedupK]
        have hall : ∀ x ∈ dedupK ((b :: m2).filter (fun e => !(dkey e == dkey a))),
            a.start ≤ x.start := by
          intro x hx
          have hx1 : x ∈ (b :: m2).filter (fun e => !(dkey e == dkey a)) :=
            (dedupK_sublist _).subset hx
          have hx2 := List.mem_of_mem_filter hx1
          rcases List.mem_cons.mp hx2 with rfl | hx3
          · exact hab
          · exact Nat.le_trans hab (hb x hx3)
        rw [ordIns_of_le a _ hall]
      · have hba : b.start < a.start := Nat.lt_of_not_le hab
        have hne : a.start ≠ b.start := fun hc => hab (Nat.le_of_eq hc)
        have hpb_a : (!(dkey a == dkey b)) = true := by
          rw [dkey_ne_of_start_ne hne]; rfl
        have hpa_b : (!(dkey b == dkey a)) = true := by
          rw [dkey_ne_of_start_ne (Ne.symm hne)]; rfl
        rw [ordIns, if_neg hab, dedupK]
        rw [filter_ordIns_pos _ a m2 hpb_a hm2]
        have hmlen : m2.length + 1 ≤ n + 1 := by simpa using hm
        have hlen : (m2.filter (fun e => !(dkey e == dkey b))).length ≤ n :=
          Nat.le_trans (List.length_filter_le _ _) (Nat.le_of_succ_le_succ hmlen)
        rw [ih (m2.filter (fun e => !(dkey e == dkey b))) hlen
            (hm2.filter (fun e => !(dkey e == dkey b)))]
        have hrhs1 : (b :: m2).filter (fun e => !(dkey e == dkey a))
            = b :: m2.filter (fun e => !(dkey e == dkey a)) := by
          simp [List.filter_cons, hpa_b]
        rw [hrhs1, dedupK]
        have hrhs2 : ordIns a
            (b :: dedupK ((m2.filter (fun e => !(dkey e == dkey a))).filter
                (fun e => !(dkey e == dkey b))))
            = b :: ordIns a (dedupK ((m2.filter (fun e => !(dkey e == dkey a))).filter
                (fun e => !(dkey e == dkey b)))) := by
          rw [ordIns, if_neg hab]
        rw [hrhs2, filter_swap]

theorem dedupK_sortD_aux : ∀ (n : Nat) (l : List Detection), l.length ≤ n →
    dedupK (sortD l) = sortD (dedupK l) := by
  intro n
  induction n with
  | zero =>
    intro l hl
    have : l = [] := List.length_eq_zero.mp (Nat.le_zero.mp hl)
    subst this
    simp [sortD, dedupK]
  | succ n ih =>
    intro l hl
    match l with
    | [] => simp [sortD, dedupK]
    | a :: l2 =>
      rw [sortD, dedupK_ordIns_aux a (sortD l2).length (sortD l2) Nat.le.refl
          (pairwise_sortD l2)]
      rw [filter_sortD]
      have hllen : l2.length + 1 ≤ n + 1 := by simpa using hl
      have hlen : (l2.filter (fun e => !(dkey e == dkey a))).length ≤ n :=
        Nat.le_trans (List.length_filter_le _ _) (Nat.le_of_succ_le_succ hllen)
      rw [ih (l2.filter (fun e => !(dkey e == dkey a))) hlen]
      rw [dedupK, sortD]

/-- C6: the implementation's sort-then-dedup equals the spec's
    dedup-then-sort: grouping the candidates (produced in the fixed scan
    order SSN, PHONE, EMAIL, CREDIT_CARD, BANK_ACCOUNT, DATE_OF_BIRTH,
    ADDRESS, PERSON_NAME, then the custom phrases in configured order) by
    `(start_offset, matched_text)`, keeping the first candidate of each
    group, and then stably sorting by `start_offset` (equal-offset ties in
    insertion order) yields exactly the scan's output. -/
theorem scan_order_equiv (cfg : Config) (words : List (List Char)) (cs : List Char) :
    scanP cfg words cs = scanSpec cfg words cs := by
  unfold scanP scanSpec
  rw [dedupAux_nil_eq_dedupK, dedupAux_nil_eq_dedupK]
  exact dedupK_sortD_aux (candidates cfg words cs).length _ Nat.le.refl

/- which categories produce which type tags (C2 machinery) -/

theorem types_detsOf (tag : String) (m : Matcher) (cs : List Char) :
    ∀ d ∈ detsOf tag m cs, d.type = tag := by
  intro d hd
  rcases List.mem_map.mp hd with ⟨sl, _, rfl⟩
  rfl

theorem types_concatMapDets {α : Type} (tag : String) (f : α → Matcher)
    (xs : List α) (cs : List Char) :
    ∀ d ∈ concatMap (fun x => detsOf tag (f x) cs) xs, d.type = tag := by
  intro d hd
  have hd2 : ∃ x ∈ xs, d ∈ detsOf tag (f x) cs := by simpa [concatMap] using hd
  rcases hd2 with ⟨x, _, hdl⟩
  exact types_detsOf tag (f x) cs d hdl

theorem types_detsOfPats (tag : String) (pats : List Matcher) (cs : List Char) :
    ∀ d ∈ detsOfPats tag pats cs, d.type = tag := by
  intro d hd
  have hd2 : ∃ p ∈ pats, d ∈ detsOf tag p cs := by
    simpa [detsOfPats, concatMap] using hd
  rcases hd2 with ⟨p, _, hdl⟩
  exact types_detsOf tag p cs d hdl

theorem filter_of_types (l : List Detection) (tag t : String)
    (h : ∀ d ∈ l, d.type = tag) :
    l.filter (fun d => !(d.type == t)) = if (tag == t) then [] else l := by
  by_cases hte : tag = t
  · subst hte
    simp only [beq_self_eq_true, if_true]
    rw [List.filter_eq_nil_iff]
    intro d hd
    simp [h d hd]
  · rw [if_neg (by simpa using hte)]
    apply List.filter_eq_self.mpr
    intro d hd
    simp [h d hd, hte]

theorem filter_detsOf (tag t : String) (m : Matcher) (cs : List Char) :
    (detsOf tag m cs).filter (fun d => !(d.type == t))
      = if (tag == t) then [] else detsOf tag m cs :=
  filter_of_types _ _ _ (types_detsOf tag m cs)

theorem filter_detsOfPats (tag t : String) (pats : List Matcher) (cs : List Char) :
    (detsOfPats tag pats cs).filter (fun d => !(d.type == t))
      = if (tag == t) then [] else detsOfPats tag pats cs :=
  filter_of_types _ _ _ (types_detsOfPats tag pats cs)

theorem filter_concatMapDets {α : Type} (tag t : String) (f : α → Matcher)
    (xs : List α) (cs : List Char) :
    (concatMap (fun x => detsOf tag (f x) cs) xs).filter (fun d => !(d.type == t))
      = if (tag == t) then [] else concatMap (fun x => detsOf tag (f x) cs) xs :=
  filter_of_types _ _ _ (types_concatMapDets tag f xs cs)

theorem filter_guard (b : Bool) (l : List Detection) (p : Detection → Bool) :
    (if b then l else []).filter p = if b then l.filter p else [] := by
  cases b <;> simp

/-- Disabling one category's toggle removes exactly that category's block
    from the candidate list. -/
theorem candidates_disable (c : PIICat) (cfg : Config) (words : List (List Char))
    (cs : List Char) :
    candidates (disable c cfg) words cs
      = (candidates cfg words cs).filter (fun d => !(d.type == tagOf c)) := by
  cases c <;>
    simp [candidates, disable, tagOf, List.filter_append, filter_guard,
      filter_detsOf, filter_detsOfPats, filter_concatMapDets]

theorem find?_filter_of_find? (q P : Detection → Bool) (d : Detection) :
    ∀ l : List Detection, l.find? q = some d → P d = true →
    (l.filter P).find? q = some d := by
  intro l
  induction l with
  | nil => intro h _; simp at h
  | cons x l ih =>
    intro h hP
    by_cases hq : q x = true
    · rw [List.find?_cons_of_pos _ hq] at h
      have : x = d := by injection h
      subst this
      rw [List.filter_cons, if_pos hP]
      exact List.find?_cons_of_pos _ hq
    · rw [List.find?_cons_of_neg _ (by simpa using hq)] at h
      rw [List.filter_cons]
      by_cases hPx : P x = true
      · rw [if_pos hPx]
        rw [List.find?_cons_of_neg _ (by simpa using hq)]
        exact ih h hP
      · rw [if_neg hPx]
        exact ih h hP

theorem find?_of_find?_filter (q P : Detection → Bool) (d : Detection)
    (himp : ∀ x, q x = true → P x = true) :
    ∀ l : List Detection, (l.filter P).find? q = some d → l.find? q = some d := by
  intro l
  induction l with
  | nil => intro h; simp at h
  | cons x l ih =>
    intro h
    rw [List.filter_cons] at h
    by_cases hPx : P x = true
    · rw [if_pos hPx] at h
      by_cases hq : q x = true
      · rw [List.find?_cons_of_pos _ hq] at h ⊢
        exact h
      · rw [List.find?_cons_of_neg _ (by simpa using hq)] at h ⊢
        exact ih h
    · rw [if_neg hPx] at h
      have hq : ¬ q x = true := fun hc => hPx (himp x hc)
      rw [List.find?_cons_of_neg _ (by simpa using hq)]
      exact ih h

theorem dedupK_mem_iff (d : Detection) : ∀ (n : Nat) (m : List Detection),
    m.length ≤ n →
    (d ∈ dedupK m ↔ m.find? (fun e => dkey e == dkey d) = some d) := by
  intro n
  induction n with
  | zero =>
    intro m hm
    have : m = [] := List.length_eq_zero.mp (Nat.le_zero.mp hm)
    subst this
    simp [dedupK]
  | succ n ih =>
    intro m hm
    match m with
    | [] => simp [dedupK]
    | b :: m2 =>
      have hmlen : m2.length + 1 ≤ n + 1 := by simpa using hm
      have hlen : (m2.filter (fun e => !(dkey e == dkey b))).length ≤ n :=
        Nat.le_trans (List.length_filter_le _ _) (Nat.le_of_succ_le_succ hmlen)
      rw [dedupK]
      by_cases hk : dkey b = dkey d
      · rw [List.find?_cons_of_pos _ (by simpa using hk)]
        constructor
        · intro hmem
          rcases List.mem_cons.mp hmem with rfl | hmem2
          · rfl
          · exfalso
            have hf : d ∈ m2.filter (fun e => !(dkey e == dkey b)) :=
              (dedupK_sublist _).subset hmem2
            have := List.of_mem_filter hf
            simp [← hk] at this
        · intro hfind
          have hbd : b = d := by injection hfind
          exact hbd ▸ List.mem_cons_self _ _
      · rw [List.find?_cons_of_neg _ (by simpa using hk)]
        have hdb : (!(dkey d == dkey b)) = true := by
          simp
          exact fun hc => hk hc.symm
        constructor
        · intro hmem
          rcases List.mem_cons.mp hmem with rfl | hmem2
          · exact absurd rfl hk
          · have hfd := (ih _ hlen).mp hmem2
            exact find?_of_find?_filter _ _ d
              (fun x hx => by
                simp at hx ⊢
                intro hc
                exact hk (hc ▸ hx))
              m2 hfd
        · intro hfind
          have hfd : (m2.filter (fun e => !(dkey e == dkey b))).find?
              (fun e => dkey e == dkey d) = some d :=
            find?_filter_of_find? _ _ d m2 hfind hdb
          exact List.mem_cons_of_mem _ ((ih _ hlen).mpr hfd)

/-- C2 counterexample: on the page `"1234567890123456"` with everything
    enabled, the 16-digit run is detected once, as CREDIT_CARD (the
    equal-key BANK_ACCOUNT candidate is deduplicated away); disabling
    CREDIT_CARD does not merely drop that detection — the BANK_ACCOUNT
    detection surfaces, so the other categories' output changes. -/
theorem category_independence_cex :
    ¬ (scanP (disable PIICat.credit_card cfgAll) [] ccBankTxt
        = (scanP cfgAll [] ccBankTxt).filter
            (fun d => !(d.type == tagOf PIICat.credit_card))) := by
  decide

/-- C2 (amended): disabling a PIICategory removes all and only that
    category's detections in the weaker sense that (a) no detection of the
    disabled category remains, and (b) every detection of any other
    category is still present; the other categories' outputs are however
    not necessarily unchanged, since a candidate of another category that
    was deduplicated away under the disabled category's equal
    `(start_offset, matched_text)` key may surface. -/
theorem category_independence_amended (c : PIICat) (cfg : Config)
    (words : List (List Char)) (cs : List Char) :
    (∀ d ∈ scanP (disable c cfg) words cs, d.type ≠ tagOf c) ∧
    (∀ d ∈ scanP cfg words cs, d.type ≠ tagOf c →
        d ∈ scanP (disable c cfg) words cs) := by
  constructor
  · intro d hd
    have h1 : d ∈ sortD (candidates (disable c cfg) words cs) :=
      (dedupAux_sublist _ _).subset hd
    have h2 : d ∈ candidates (disable c cfg) words cs := (perm_sortD _).subset h1
    rw [candidates_disable] at h2
    have := List.of_mem_filter h2
    simpa using this
  · intro d hd hdt
    have hP : (!(d.type == tagOf c)) = true := by simpa using hdt
    unfold scanP at hd ⊢
    rw [dedupAux_nil_eq_dedupK] at hd ⊢
    rw [candidates_disable, ← filter_sortD]
    have hfind := (dedupK_mem_iff d
      (sortD (candidates cfg words cs)).length _ Nat.le.refl).mp hd
    refine (dedupK_mem_iff d
      ((sortD (candidates cfg words cs)).filter (fun e => !(e.type == tagOf c))).length
      _ Nat.le.refl).mpr ?_
    exact find?_filter_of_find? _ _ d _ hfind hP

theorem category_independence_amended_witness :
    ({ text := "123-45-6789".toList, type := "SSN", start := 4, page := 0 } : Detection)
      ∈ scanP (disable PIICat.credit_card cfgAll) [] ssnPage :=
  (category_independence_amended PIICat.credit_card cfgAll [] ssnPage).2
    { text := "123-45-6789".toList, type := "SSN", start := 4, page := 0 }
    (by decide) (by decide)

/- the custom-word rule: escaped literal, IGNORECASE (C8 machinery) -/

theorem matchLen_litCI (w cs : List Char) (i : Nat) :
    matchLen (litCI w) cs i = if ciAt w cs i then some w.length else none := by
  unfold matchLen litCI
  by_cases h : ciAt w cs i
  · simp [h]
  · simp [h]

theorem finditerFrom_litCI (w cs : List Char) (hw : w ≠ []) :
    ∀ (fuel i : Nat),
    finditerFrom (matchLen (litCI w)) cs i fuel
      = (scanOccsFrom w cs i fuel).map (fun j => (j, w.length)) := by
  have hmax : max w.length 1 = w.length :=
    Nat.max_eq_left (Nat.succ_le_of_lt (List.length_pos.mpr hw))
  intro fuel
  induction fuel with
  | zero => intro i; simp [finditerFrom, scanOccsFrom]
  | succ fuel ih =>
    intro i
    by_cases h : ciAt w cs i
    · simp [finditerFrom, scanOccsFrom, matchLen_litCI, h, hmax, ih]
    · simp [finditerFrom, scanOccsFrom, matchLen_litCI, h, ih]

theorem scanOccsFrom_sound (w cs : List Char) :
    ∀ (fuel i j : Nat), j ∈ scanOccsFrom w cs i fuel → ciAt w cs j = true := by
  intro fuel
  induction fuel with
  | zero => intro i j h; simp [scanOccsFrom] at h
  | succ fuel ih =>
    intro i j h
    by_cases hc : ciAt w cs i
    · rw [scanOccsFrom, if_pos hc] at h
      rcases List.mem_cons.mp h with rfl | h2
      · exact hc
      · exact ih _ j h2
    · rw [scanOccsFrom, if_neg hc] at h
      exact ih _ j h

/-- C8 (amended): for a non-empty custom phrase, the scan's CUSTOM rule
    produces exactly one candidate per occurrence found by the
    left-to-right non-overlapping scan (`re.finditer` resumes after the end
    of each match, so of two overlapping occurrences only the leftmost is
    found); each candidate's matched text is the page's own spelling of the
    phrase at that position, matched case-insensitively and literally. -/
theorem custom_phrase_scan (w cs : List Char) (hw : w ≠ []) :
    detsOf "CUSTOM" (litCI w) cs
      = (scanOccs w cs).map (fun j =>
          { text := sliceTxt cs j w.length, type := "CUSTOM", start := j,
            page := 0 }) ∧
    (∀ j ∈ scanOccs w cs, ciAt w cs j = true) := by
  constructor
  · unfold detsOf finditer scanOccs
    rw [finditerFrom_litCI w cs hw]
    rw [List.map_map]
    rfl
  · intro j hj
    exact scanOccsFrom_sound w cs _ _ j hj

theorem custom_phrase_scan_witness :
    (detsOf "CUSTOM" (litCI "Project-123".toList) "see PROJECT-123 here".toList
      = (scanOccs "Project-123".toList "see PROJECT-123 here".toList).map (fun j =>
          { text := sliceTxt "see PROJECT-123 here".toList j
              "Project-123".toList.length,
            type := "CUSTOM", start := j, page := 0 }) ∧
    (∀ j ∈ scanOccs "Project-123".toList "see PROJECT-123 here".toList,
        ciAt "Project-123".toList "see PROJECT-123 here".toList j = true)) :=
  custom_phrase_scan "Project-123".toList "see PROJECT-123 here".toList (by decide)

/-- C8 counterexample: the phrase `"aa"` occurs case-insensitively as a
    literal substring of `"aaa"` at offsets 0 and 1, but the scan produces
    only one CUSTOM detection (at offset 0): it does not find every
    occurrence, because `re.finditer` matches non-overlappingly. -/
theorem custom_phrase_cex :
    ¬ (∀ j ∈ subOccs "aa".toList "aaa".toList,
        ∃ d ∈ scanP cfgAll ["aa".toList] "aaa".toList,
          d.start = j ∧ d.type = "CUSTOM") ∧
    subOccs "aa".toList "aaa".toList = [0, 1] ∧
    (detsOf "CUSTOM" (litCI "aa".toList) "aaa".toList).length = 1 := by
  refine ⟨by decide, by decide, by decide⟩

/- soundness of the matcher combinators (C9 machinery) -/

theorem bAssert_sound {cs : List Char} {i : Nat} {k : Nat → Option Nat} {r : Nat}
    (h : bAssert cs i k = some r) : wordBd cs i = true ∧ k i = some r := by
  unfold bAssert at h
  by_cases hb : wordBd cs i
  · exact ⟨hb, by simpa [hb] using h⟩
  · simp [hb] at h

theorem oneCls_sound {p : Char → Bool} {cs : List Char} {i : Nat}
    {k : Nat → Option Nat} {r : Nat} (h : oneCls p cs i k = some r) :
    ∃ c, charAt? cs i = some c ∧ p c = true ∧ k (i + 1) = some r := by
  unfold oneCls at h
  cases hc : charAt? cs i with
  | none => rw [hc] at h; exact absurd h (by simp)
  | some c =>
    rw [hc] at h
    by_cases hp : p c
    · exact ⟨c, rfl, hp, by simpa [hp] using h⟩
    · simp [hp] at h

theorem optM_sound {m : Matcher} {cs : List Char} {i : Nat}
    {k : Nat → Option Nat} {r : Nat} (h : optM m cs i k = some r) :
    m cs i k = some r ∨ k i = some r := by
  unfold optM at h
  cases hm : m cs i k with
  | some v =>
    rw [hm] at h
    simp at h
    subst h
    left
    rfl
  | none =>
    rw [hm] at h
    simp at h
    right
    exact h

theorem litEx_sound {s cs : List Char} {i : Nat} {k : Nat → Option Nat} {r : Nat}
    (h : litEx s cs i k = some r) :
    exAt s cs i = true ∧ k (i + s.length) = some r := by
  unfold litEx at h
  by_cases hx : exAt s cs i
  · exact ⟨hx, by simpa [hx] using h⟩
  · simp [hx] at h

theorem litCI_sound {s cs : List Char} {i : Nat} {k : Nat → Option Nat} {r : Nat}
    (h : litCI s cs i k = some r) :
    ciAt s cs i = true ∧ k (i + s.length) = some r := by
  unfold litCI at h
  by_cases hx : ciAt s cs i
  · exact ⟨hx, by simpa [hx] using h⟩
  · simp [hx] at h

theorem altM_sound {ms : List Matcher} {cs : List Char} {i : Nat}
    {k : Nat → Option Nat} {r : Nat} (h : altM ms cs i k = some r) :
    ∃ m ∈ ms, m cs i k = some r :=
  List.exists_of_findSome?_eq_some h

theorem repCls_sound {p : Char → Bool} {lo : Nat} {hi : Option Nat}
    {cs : List Char} {i : Nat} {k : Nat → Option Nat} {r : Nat}
    (h : repCls p lo hi cs i k = some r) :
    ∃ nn, lo ≤ nn ∧ nn ≤ runLen p (cs.drop i) ∧
      (∀ hh, hi = some hh → nn ≤ hh) ∧ k (i + nn) = some r := by
  cases hi with
  | none =>
    simp only [repCls] at h
    by_cases hlt : runLen p (cs.drop i) < lo
    · rw [if_pos hlt] at h; exact absurd h (by simp)
    · rw [if_neg hlt] at h
      rcases List.exists_of_findSome?_eq_some h with ⟨t, ht, hkt⟩
      have htr := List.mem_range.mp ht
      have hco : i + runLen p (cs.drop i) - t
          = i + (runLen p (cs.drop i) - t) := by omega
      rw [hco] at hkt
      exact ⟨runLen p (cs.drop i) - t, by omega, by omega, by simp, hkt⟩
  | some hh =>
    simp only [repCls] at h
    by_cases hlt : min (runLen p (cs.drop i)) hh < lo
    · rw [if_pos hlt] at h; exact absurd h (by simp)
    · rw [if_neg hlt] at h
      rcases List.exists_of_findSome?_eq_some h with ⟨t, ht, hkt⟩
      have htr := List.mem_range.mp ht
      have hm1 : min (runLen p (cs.drop i)) hh ≤ runLen p (cs.drop i) :=
        Nat.min_le_left _ _
      have hm2 : min (runLen p (cs.drop i)) hh ≤ hh := Nat.min_le_right _ _
      have hco : i + min (runLen p (cs.drop i)) hh - t
          = i + (min (runLen p (cs.drop i)) hh - t) := by omega
      rw [hco] at hkt
      refine ⟨min (runLen p (cs.drop i)) hh - t, by omega, by omega, ?_, hkt⟩
      intro hh2 heq
      injection heq with heq2
      subst heq2
      omega

theorem repCls_adv {p : Char → Bool} {lo : Nat} {hi : Option Nat}
    {cs : List Char} {i : Nat} {k : Nat → Option Nat} {r : Nat}
    (h : repCls p lo hi cs i k = some r) : ∃ j, i ≤ j ∧ k j = some r := by
  rcases repCls_sound h with ⟨nn, _, _, _, hk⟩
  exact ⟨i + nn, Nat.le_add_right _ _, hk⟩

theorem optM_oneCls_adv {p : Char → Bool} {cs : List Char} {i : Nat}
    {k : Nat → Option Nat} {r : Nat} (h : optM (oneCls p) cs i k = some r) :
    ∃ j, i ≤ j ∧ k j = some r := by
  rcases optM_sound h with h1 | h1
  · rcases oneCls_sound h1 with ⟨c, _, _, h2⟩
    exact ⟨i + 1, by omega, h2⟩
  · exact ⟨i, Nat.le.refl, h1⟩

/- extracting characters from runs and literals -/

theorem runLen_chars (p : Char → Bool) : ∀ (l : List Char) (j : Nat),
    j < runLen p l → ∃ c, l[j]? = some c ∧ p c = true := by
  intro l
  induction l with
  | nil => intro j h; simp [runLen] at h
  | cons c rest ih =>
    intro j h
    rw [runLen] at h
    by_cases hp : p c
    · rw [if_pos hp] at h
      cases j with
      | zero => exact ⟨c, by simp, hp⟩
      | succ j =>
        rcases ih j (by omega) with ⟨c2, hc2, hp2⟩
        exact ⟨c2, by simpa using hc2, hp2⟩
    · rw [if_neg hp] at h
      omega

theorem runLen_chars_at (p : Char → Bool) (cs : List Char) (i j : Nat)
    (h : j < runLen p (cs.drop i)) :
    ∃ c, charAt? cs (i + j) = some c ∧ p c = true := by
  rcases runLen_chars p (cs.drop i) j h with ⟨c, hc, hp⟩
  refine ⟨c, ?_, hp⟩
  unfold charAt?
  rw [← List.getElem?_drop]
  exact hc

theorem exAt_cons {c : Char} {s cs : List Char} {i : Nat}
    (h : exAt (c :: s) cs i = true) :
    charAt? cs i = some c ∧ exAt s cs (i + 1) = true := by
  unfold exAt at h
  cases hc : charAt? cs i with
  | none => rw [hc] at h; exact absurd h (by simp)
  | some d =>
    rw [hc] at h
    rcases Bool.and_eq_true_iff.mp h with ⟨h1, h2⟩
    have hcd : c = d := by simpa using h1
    refine ⟨?_, h2⟩
    exact congrArg some hcd.symm

theorem chAt_of_char {cs : List Char} {j : Nat} {c : Char}
    (hc : charAt? cs j = some c) : chAt cs j c = true := by
  unfold chAt
  unfold charAt? at hc
  rw [hc]
  simp

theorem digitAt_of_char {cs : List Char} {j : Nat} {c : Char}
    (hc : charAt? cs j = some c) (hd : digitC c = true) : digitAt cs j = true := by
  unfold digitAt
  unfold charAt? at hc
  rw [hc]
  exact hd

/- the year group matches exactly a 19xx/20xx four-digit year -/

theorem yearM_sound {cs : List Char} {i : Nat} {k : Nat → Option Nat} {r : Nat}
    (h : yearM cs i k = some r) :
    isYearAt cs i = true ∧ k (i + 4) = some r := by
  unfold yearM seqM at h
  rcases altM_sound h with ⟨m, hm, hrun⟩
  simp only [List.mem_cons, List.not_mem_nil, or_false] at hm
  have hdig : ∀ {kd : Nat → Option Nat} {rd : Nat},
      repCls digitC 2 (some 2) cs (i + 2) kd = some rd →
      digitAt cs (i + 2) = true ∧ digitAt cs (i + 3) = true ∧
        kd (i + 4) = some rd := by
    intro kd rd hrep
    rcases repCls_sound hrep with ⟨nn, hlo, hrun2, hhi, hk⟩
    have hnn : nn = 2 := Nat.le_antisymm (hhi 2 rfl) hlo
    subst hnn
    rcases runLen_chars_at digitC cs (i + 2) 0 (by omega) with ⟨c0, hc0, hd0⟩
    rcases runLen_chars_at digitC cs (i + 2) 1 (by omega) with ⟨c1, hc1, hd1⟩
    refine ⟨digitAt_of_char (by simpa using hc0) hd0,
            digitAt_of_char (by simpa [Nat.add_assoc] using hc1) hd1, ?_⟩
    have : i + 2 + 2 = i + 4 := by omega
    rw [← this]
    exact hk
  rcases hm with rfl | rfl
  · rcases litEx_sound hrun with ⟨hlit, hk⟩
    rcases exAt_cons hlit with ⟨hc1, hrest⟩
    rcases exAt_cons hrest with ⟨hc9, _⟩
    have hk2 : repCls digitC 2 (some 2) cs (i + 2) k = some r := by
      simpa using hk
    rcases hdig hk2 with ⟨hd2, hd3, hk4⟩
    refine ⟨?_, hk4⟩
    unfold isYearAt
    rw [chAt_of_char hc1, chAt_of_char hc9, hd2, hd3]
    simp
  · rcases litEx_sound hrun with ⟨hlit, hk⟩
    rcases exAt_cons hlit with ⟨hc2, hrest⟩
    rcases exAt_cons hrest with ⟨hc0, _⟩
    have hk2 : repCls digitC 2 (some 2) cs (i + 2) k = some r := by
      simpa using hk
    rcases hdig hk2 with ⟨hd2, hd3, hk4⟩
    refine ⟨?_, hk4⟩
    unfold isYearAt
    rw [chAt_of_char hc2, chAt_of_char hc0, hd2, hd3]
    simp

theorem monthNum_adv {cs : List Char} {i : Nat} {k : Nat → Option Nat} {r : Nat}
    (h : monthNum cs i k = some r) : ∃ j, i ≤ j ∧ k j = some r := by
  unfold monthNum at h
  rcases altM_sound h with ⟨m, hm, hrun⟩
  simp only [List.mem_cons, List.not_mem_nil, or_false] at hm
  rcases hm with rfl | rfl
  · unfold seqM at hrun
    rcases optM_oneCls_adv hrun with ⟨j, hj, h2⟩
    rcases oneCls_sound h2 with ⟨c, _, _, h3⟩
    exact ⟨j + 1, by omega, h3⟩
  · unfold seqM at hrun
    rcases oneCls_sound hrun with ⟨c, _, _, h2⟩
    rcases oneCls_sound h2 with ⟨c2, _, _, h3⟩
    exact ⟨i + 1 + 1, by omega, h3⟩

theorem dayNum_adv {cs : List Char} {i : Nat} {k : Nat → Option Nat} {r : Nat}
    (h : dayNum cs i k = some r) : ∃ j, i ≤ j ∧ k j = some r := by
  unfold dayNum at h
  rcases altM_sound h with ⟨m, hm, hrun⟩
  simp only [List.mem_cons, List.not_mem_nil, or_false] at hm
  rcases hm with rfl | rfl | rfl
  · unfold seqM at hrun
    rcases optM_oneCls_adv hrun with ⟨j, hj, h2⟩
    rcases oneCls_sound h2 with ⟨c, _, _, h3⟩
    exact ⟨j + 1, by omega, h3⟩
  · unfold seqM at hrun
    rcases oneCls_sound hrun with ⟨c, _, _, h2⟩
    rcases oneCls_sound h2 with ⟨c2, _, _, h3⟩
    exact ⟨i + 1 + 1, by omega, h3⟩
  · unfold seqM at hrun
    rcases oneCls_sound hrun with ⟨c, _, _, h2⟩
    rcases oneCls_sound h2 with ⟨c2, _, _, h3⟩
    exact ⟨i + 1 + 1, by omega, h3⟩

theorem monthName_adv {cs : List Char} {i : Nat} {k : Nat → Option Nat} {r : Nat}
    (h : monthName cs i k = some r) : ∃ j, i ≤ j ∧ k j = some r := by
  unfold monthName at h
  rcases altM_sound h with ⟨m, hm, hrun⟩
  simp only [List.mem_cons, List.not_mem_nil, or_false] at hm
  rcases hm with rfl|rfl|rfl|rfl|rfl|rfl|rfl|rfl|rfl|rfl|rfl|rfl <;>
    · rcases litCI_sound hrun with ⟨_, hk⟩
      exact ⟨_, Nat.le_add_right _ _, hk⟩

/- each DATE_OF_BIRTH pattern carries a 19xx/20xx year -/

theorem dob1_year {cs : List Char} {s e : Nat} (h : dob1 cs s some = some e) :
    ∃ y, s ≤ y ∧ y + 4 = e ∧ isYearAt cs y = true := by
  unfold dob1 seqM at h
  rcases bAssert_sound h with ⟨_, h1⟩
  rcases monthNum_adv h1 with ⟨j1, hj1, h2⟩
  rcases oneCls_sound h2 with ⟨c1, _, _, h3⟩
  rcases dayNum_adv h3 with ⟨j2, hj2, h4⟩
  rcases oneCls_sound h4 with ⟨c2, _, _, h5⟩
  rcases yearM_sound h5 with ⟨hy, h6⟩
  rcases bAssert_sound h6 with ⟨_, h7⟩
  have he : j2 + 1 + 4 = e := by injection h7
  exact ⟨j2 + 1, by omega, by omega, hy⟩

theorem dob2_year {cs : List Char} {s e : Nat} (h : dob2 cs s some = some e) :
    isYearAt cs s = true ∧ s + 4 ≤ e := by
  unfold dob2 seqM at h
  rcases bAssert_sound h with ⟨_, h1⟩
  rcases yearM_sound h1 with ⟨hy, h2⟩
  rcases oneCls_sound h2 with ⟨c1, _, _, h3⟩
  rcases monthNum_adv h3 with ⟨j1, hj1, h4⟩
  rcases oneCls_sound h4 with ⟨c2, _, _, h5⟩
  rcases dayNum_adv h5 with ⟨j2, hj2, h6⟩
  rcases bAssert_sound h6 with ⟨_, h7⟩
  have he : j2 = e := by injection h7
  exact ⟨hy, by omega⟩

theorem dob3_year {cs : List Char} {s e : Nat} (h : dob3 cs s some = some e) :
    ∃ y, s ≤ y ∧ y + 4 = e ∧ isYearAt cs y = true := by
  unfold dob3 seqM at h
  rcases bAssert_sound h with ⟨_, h1⟩
  rcases monthName_adv h1 with ⟨j1, hj1, h2⟩
  rcases repCls_adv h2 with ⟨j2, hj2, h3⟩
  rcases optM_oneCls_adv h3 with ⟨j3, hj3, h4⟩
  rcases repCls_adv h4 with ⟨j4, hj4, h5⟩
  rcases repCls_adv h5 with ⟨j5, hj5, h6⟩
  rcases optM_oneCls_adv h6 with ⟨j6, hj6, h7⟩
  rcases repCls_adv h7 with ⟨j7, hj7, h8⟩
  rcases yearM_sound h8 with ⟨hy, h9⟩
  rcases bAssert_sound h9 with ⟨_, h10⟩
  have he : j7 + 4 = e := by injection h10
  exact ⟨j7, by omega, by omega, hy⟩

/- from scan membership back to a successful match (C9 assembly) -/

theorem finditerFrom_sound (m : List Char → Nat → Option Nat) (cs : List Char) :
    ∀ (fuel i s L : Nat), (s, L) ∈ finditerFrom m cs i fuel → m cs s = some L := by
  intro fuel
  induction fuel with
  | zero => intro i s L h; simp [finditerFrom] at h
  | succ fuel ih =>
    intro i s L h
    rw [finditerFrom] at h
    cases hm : m cs i with
    | some L2 =>
      rw [hm] at h
      rcases List.mem_cons.mp h with heq | h2
      · injection heq with hs hL
        subst hs
        subst hL
        exact hm
      · exact ih _ s L h2
    | none =>
      rw [hm] at h
      exact ih _ s L h

theorem matchLen_elim {m : Matcher} {cs : List Char} {s L : Nat}
    (h : matchLen m cs s = some L) : ∃ e, m cs s some = some e ∧ e - s = L := by
  unfold matchLen at h
  cases hm : m cs s some with
  | none => rw [hm] at h; exact absurd h (by simp)
  | some e => rw [hm] at h; exact ⟨e, rfl, by simpa using h⟩

theorem detsOf_elim {tag : String} {m : Matcher} {cs : List Char} {d : Detection}
    (hd : d ∈ detsOf tag m cs) :
    ∃ s L, matchLen m cs s = some L ∧ d.text = sliceTxt cs s L ∧ d.start = s := by
  unfold detsOf finditer at hd
  rcases List.mem_map.mp hd with ⟨sl, hsl, rfl⟩
  rcases sl with ⟨s, L⟩
  exact ⟨s, L, finditerFrom_sound (matchLen m) cs _ _ s L hsl, rfl, rfl⟩

/- transporting a year inside the matched span to the matched text -/

theorem sliceTxt_getElem? (cs : List Char) (s L j : Nat) (h : j < L) :
    (sliceTxt cs s L)[j]? = cs[s + j]? := by
  unfold sliceTxt
  rw [List.getElem?_take_of_lt h, List.getElem?_drop]

theorem chAt_sliceTxt (cs : List Char) (s L j : Nat) (c : Char) (h : j < L) :
    chAt (sliceTxt cs s L) j c = chAt cs (s + j) c := by
  unfold chAt
  rw [sliceTxt_getElem? cs s L j h]

theorem digitAt_sliceTxt (cs : List Char) (s L j : Nat) (h : j < L) :
    digitAt (sliceTxt cs s L) j = digitAt cs (s + j) := by
  unfold digitAt
  rw [sliceTxt_getElem? cs s L j h]

theorem digitAt_lt {l : List Char} {i : Nat} (h : digitAt l i = true) :
    i < l.length := by
  unfold digitAt at h
  cases hc : l[i]? with
  | none => rw [hc] at h; exact absurd h (by simp)
  | some c =>
    by_contra hge
    rw [List.getElem?_eq_none (Nat.le_of_not_lt hge)] at hc
    exact Option.noConfusion hc

theorem hasYear_slice {cs : List Char} {s L y : Nat} (hy : isYearAt cs y = true)
    (hsy : s ≤ y) (hE : y + 4 ≤ s + L) : hasYear (sliceTxt cs s L) = true := by
  have hparts := hy
  unfold isYearAt at hparts
  rcases Bool.and_eq_true_iff.mp hparts with ⟨hab, hd4⟩
  have hlen : y + 3 < cs.length := digitAt_lt hd4
  unfold hasYear
  rw [List.any_eq_true]
  refine ⟨y - s, ?_, ?_⟩
  · rw [List.mem_range]
    unfold sliceTxt
    rw [List.length_take, List.length_drop]
    omega
  · unfold isYearAt
    rw [chAt_sliceTxt cs s L (y - s) '1' (by omega),
        chAt_sliceTxt cs s L (y - s + 1) '9' (by omega),
        chAt_sliceTxt cs s L (y - s) '2' (by omega),
        chAt_sliceTxt cs s L (y - s + 1) '0' (by omega),
        digitAt_sliceTxt cs s L (y - s + 2) (by omega),
        digitAt_sliceTxt cs s L (y - s + 3) (by omega)]
    have e1 : s + (y - s) = y := by omega
    have e2 : s + (y - s + 1) = y + 1 := by omega
    have e3 : s + (y - s + 2) = y + 2 := by omega
    have e4 : s + (y - s + 3) = y + 3 := by omega
    rw [e1, e2, e3, e4]
    exact hy

theorem mem_guard_elim {d : Detection} {b : Bool} {l : List Detection}
    (h : d ∈ (if b then l else [])) : d ∈ l := by
  cases b
  · simp at h
  · simpa using h

theorem mem_candidates_dob {cfg : Config} {words : List (List Char)}
    {cs : List Char} {d : Detection} (hd : d ∈ candidates cfg words cs)
    (hdt : d.type = "DOB") : d ∈ detsOfPats "DOB" [dob1, dob2, dob3] cs := by
  unfold candidates at hd
  rcases List.mem_append.mp hd with hd | h
  rotate_left
  · have := types_concatMapDets "CUSTOM" litCI words cs d h
    rw [hdt] at this
    exact absurd this (by decide)
  rcases List.mem_append.mp hd with hd | h
  rotate_left
  · have := types_concatMapDets "NAME" namePat COMMON_NAMES cs d (mem_guard_elim h)
    rw [hdt] at this
    exact absurd this (by decide)
  rcases List.mem_append.mp hd with hd | h
  rotate_left
  · have := types_detsOfPats "ADDRESS" _ cs d (mem_guard_elim h)
    rw [hdt] at this
    exact absurd this (by decide)
  rcases List.mem_append.mp hd with hd | h
  rotate_left
  · exact mem_guard_elim h
  rcases List.mem_append.mp hd with hd | h
  rotate_left
  · have := types_detsOf "BANK_ACCOUNT" _ cs d (mem_guard_elim h)
    rw [hdt] at this
    exact absurd this (by decide)
  rcases List.mem_append.mp hd with hd | h
  rotate_left
  · have := types_detsOf "CREDIT_CARD" _ cs d (mem_guard_elim h)
    rw [hdt] at this
    exact absurd this (by decide)
  rcases List.mem_append.mp hd with hd | h
  rotate_left
  · have := types_detsOf "EMAIL" _ cs d (mem_guard_elim h)
    rw [hdt] at this
    exact absurd this (by decide)
  rcases List.mem_append.mp hd with h | h
  · have := types_detsOfPats "SSN" _ cs d (mem_guard_elim h)
    rw [hdt] at this
    exact absurd this (by decide)
  · have := types_detsOf "PHONE" _ cs d (mem_guard_elim h)
    rw [hdt] at this
    exact absurd this (by decide)

/-- C9 (amended): the three DATE_OF_BIRTH rules are the numeric
    month/day/year and year/month/day forms with `-` or `/` as separator
    (not only `/`), and the English month-name form with the period and the
    comma optional, matched case-insensitively; every year they accept
    begins with 19 or 20 (four digits, no 2-digit tolerance): every DOB
    detection of any scan contains a 19xx/20xx year in its matched text. -/
theorem dob_year_restriction (cfg : Config) (words : List (List Char))
    (cs : List Char) :
    ∀ d ∈ scanP cfg words cs, d.type = "DOB" → hasYear d.text = true := by
  intro d hd hdt
  have h1 : d ∈ candidates cfg words cs :=
    (perm_sortD _).subset ((dedupAux_sublist _ _).subset hd)
  have h2 : d ∈ detsOfPats "DOB" [dob1, dob2, dob3] cs :=
    mem_candidates_dob h1 hdt
  have h3 : ∃ p ∈ [dob1, dob2, dob3], d ∈ detsOf "DOB" p cs := by
    simpa [detsOfPats, concatMap] using h2
  rcases h3 with ⟨p, hp, hdp⟩
  rcases detsOf_elim hdp with ⟨s, L, hml, htext, hstart⟩
  rcases matchLen_elim hml with ⟨e, hrun, hLe⟩
  have hmem3 : p = dob1 ∨ p = dob2 ∨ p = dob3 := by simpa using hp
  rw [htext]
  rcases hmem3 with rfl | rfl | rfl
  · rcases dob1_year hrun with ⟨y, hsy, hye, hy⟩
    exact hasYear_slice hy hsy (by omega)
  · rcases dob2_year hrun with ⟨hy, hse⟩
    exact hasYear_slice hy Nat.le.refl (by omega)
  · rcases dob3_year hrun with ⟨y, hsy, hye, hy⟩
    exact hasYear_slice hy hsy (by omega)

theorem dob_year_restriction_witness :
    hasYear ("03/15/1985".toList) = true :=
  dob_year_restriction cfgDobOnly [] "03/15/1985".toList
    { text := "03/15/1985".toList, type := "DOB", start := 0, page := 0 }
    (by decide) rfl

/-- C9 counterexample: `"01-02-1990"` — dash separators, no slash and no
    letter, so in none of the three claimed literal formats (MM/DD/YYYY,
    YYYY/MM/DD, "Mon DD, YYYY") — is nevertheless matched whole by the
    DATE_OF_BIRTH rules. -/
theorem dob_formats_cex :
    (detsOfPats "DOB" [dob1, dob2, dob3] "01-02-1990".toList).map
        (fun d => (d.text, d.start))
      = [("01-02-1990".toList, 0)] ∧
    "01-02-1990".toList.all (fun c => !(c == '/') && !(c.isAlpha)) = true := by
  refine ⟨by decide, by decide⟩
